import Mathlib

/-!
Verification development for `src/py/registration/RegularizedInPlaneRegistration.py`.

Shallow embedding conventions:
* Scalar values (pixel intensities, transform parameters, geometry) are modelled
  over `ℚ`, the standard exact model of the source's real-valued arithmetic.
* The cosine and sine functions used by ITK's rigid transforms are passed in as
  explicit parameters `C S : ℚ → ℚ`; theorems that need trigonometric identities
  (such as `C 0 = 1`) state them as hypotheses.
* External collaborators (the SimpleITK resampling primitive, the scipy
  least-squares solver) are oracle parameters, quantified over in the theorems.
* Helper code of this repository that is not under `src/` (transform composition
  utilities, the `Stack`/`Slice` containers) is modelled from the specification;
  each such definition carries a doc comment starting `Modelled from the spec:`.
* Object identity and in-place mutation of slices are modelled with an explicit
  heap (`Heap := List SliceObj`); allocation appends to the heap, mutation is
  `List.set`.  Fallible operations (out-of-range indexing, `numpy.reshape`
  failures, shape mismatches) return `Option`.
-/

namespace RegInPlane

/-- A 3-vector of rationals (a point or translation in physical 3D space). -/
structure Vec3 where
  x : ℚ
  y : ℚ
  z : ℚ
deriving DecidableEq

/-- A 3x3 matrix of rationals (a direction matrix or linear transform part). -/
structure Mat3 where
  m11 : ℚ
  m12 : ℚ
  m13 : ℚ
  m21 : ℚ
  m22 : ℚ
  m23 : ℚ
  m31 : ℚ
  m32 : ℚ
  m33 : ℚ
deriving DecidableEq

def v3zero : Vec3 := ⟨0, 0, 0⟩

def v3add (a b : Vec3) : Vec3 := ⟨a.x + b.x, a.y + b.y, a.z + b.z⟩

def v3neg (a : Vec3) : Vec3 := ⟨-a.x, -a.y, -a.z⟩

def m3id : Mat3 := ⟨1, 0, 0, 0, 1, 0, 0, 0, 1⟩

def m3mul (a b : Mat3) : Mat3 :=
  ⟨a.m11 * b.m11 + a.m12 * b.m21 + a.m13 * b.m31,
   a.m11 * b.m12 + a.m12 * b.m22 + a.m13 * b.m32,
   a.m11 * b.m13 + a.m12 * b.m23 + a.m13 * b.m33,
   a.m21 * b.m11 + a.m22 * b.m21 + a.m23 * b.m31,
   a.m21 * b.m12 + a.m22 * b.m22 + a.m23 * b.m32,
   a.m21 * b.m13 + a.m22 * b.m23 + a.m23 * b.m33,
   a.m31 * b.m11 + a.m32 * b.m21 + a.m33 * b.m31,
   a.m31 * b.m12 + a.m32 * b.m22 + a.m33 * b.m32,
   a.m31 * b.m13 + a.m32 * b.m23 + a.m33 * b.m33⟩

def m3vec (a : Mat3) (v : Vec3) : Vec3 :=
  ⟨a.m11 * v.x + a.m12 * v.y + a.m13 * v.z,
   a.m21 * v.x + a.m22 * v.y + a.m23 * v.z,
   a.m31 * v.x + a.m32 * v.y + a.m33 * v.z⟩

/-- Determinant of a 3x3 matrix (cofactor expansion along the first row). -/
def m3det (a : Mat3) : ℚ :=
  a.m11 * (a.m22 * a.m33 - a.m23 * a.m32)
    - a.m12 * (a.m21 * a.m33 - a.m23 * a.m31)
    + a.m13 * (a.m21 * a.m32 - a.m22 * a.m31)

/-- Adjugate (transpose of the cofactor matrix) of a 3x3 matrix. -/
def m3adj (a : Mat3) : Mat3 :=
  ⟨a.m22 * a.m33 - a.m23 * a.m32,
   a.m13 * a.m32 - a.m12 * a.m33,
   a.m12 * a.m23 - a.m13 * a.m22,
   a.m23 * a.m31 - a.m21 * a.m33,
   a.m11 * a.m33 - a.m13 * a.m31,
   a.m13 * a.m21 - a.m11 * a.m23,
   a.m21 * a.m32 - a.m22 * a.m31,
   a.m12 * a.m31 - a.m11 * a.m32,
   a.m11 * a.m22 - a.m12 * a.m21⟩

def m3smul (q : ℚ) (a : Mat3) : Mat3 :=
  ⟨q * a.m11, q * a.m12, q * a.m13,
   q * a.m21, q * a.m22, q * a.m23,
   q * a.m31, q * a.m32, q * a.m33⟩

/-- Modelled from the spec: `invert` on the linear part of an affine transform
(ITK `GetInverse`).  Written with the adjugate formula, total over `ℚ`
(division by a zero determinant yields junk; ITK raises instead, and every
theorem whose meaning depends on the inverse assumes `m3det ≠ 0`). -/
def m3inv (a : Mat3) : Mat3 := m3smul (m3det a)⁻¹ (m3adj a)

/-- A general 3D affine transform: the point map `p ↦ A p + t`
(sitk `AffineTransform(3)` in matrix/offset form). -/
structure Affine3 where
  A : Mat3
  t : Vec3
deriving DecidableEq

def affApply (T : Affine3) (p : Vec3) : Vec3 := v3add (m3vec T.A p) T.t

/-- Modelled from the spec: `compose(outer, inner)` applies `inner` first and
`outer` second (`sitkh.get_composite_sitk_affine_transform`), point-wise
equivalent to `outer(inner(x))`. -/
def affComp (outer inner : Affine3) : Affine3 :=
  ⟨m3mul outer.A inner.A, v3add (m3vec outer.A inner.t) outer.t⟩

/-- Modelled from the spec: `invert(T)` as a point-wise inverse of the affine
map, `sitk.AffineTransform(T.GetInverse())`. -/
def affInv (T : Affine3) : Affine3 :=
  ⟨m3inv T.A, v3neg (m3vec (m3inv T.A) T.t)⟩

def affId : Affine3 := ⟨m3id, v3zero⟩

/-- A 2D rigid transform (`sitk.Euler2DTransform`): rotation `angle` about
`center` followed by translation `(tx, ty)`.  A freshly constructed
`sitk.Euler2DTransform()` has all fields zero. -/
structure Euler2D where
  angle : ℚ
  tx : ℚ
  ty : ℚ
  cx : ℚ
  cy : ℚ
deriving DecidableEq

def euler2DDefault : Euler2D := ⟨0, 0, 0, 0, 0⟩

/-- `Euler2DTransform.SetParameters((angle, tx, ty))`: overwrites the rigid
parameters, keeping the (fixed-parameter) center. -/
def euler2DSetParameters (T : Euler2D) (p : ℚ × ℚ × ℚ) : Euler2D :=
  ⟨p.1, p.2.1, p.2.2, T.cx, T.cy⟩

/-- Planar rotation with given cosine and sine values. -/
def rot2 (c s : ℚ) (p : ℚ × ℚ) : ℚ × ℚ :=
  (c * p.1 - s * p.2, s * p.1 + c * p.2)

/-- The point map of a 2D rigid transform: `p ↦ R(angle)(p − c) + c + t`,
with the trigonometric functions `C S` passed in. -/
def euler2DApply (C S : ℚ → ℚ) (T : Euler2D) (p : ℚ × ℚ) : ℚ × ℚ :=
  let r := rot2 (C T.angle) (S T.angle) (p.1 - T.cx, p.2 - T.cy)
  (r.1 + T.cx + T.tx, r.2 + T.cy + T.ty)

/-- Modelled from the spec: `invert` on a 2D rigid transform
(`sitk.Euler2DTransform(T.GetInverse())`): same center, negated angle,
translation `−R(−angle)·t`; `euler2DInverse_apply` below checks that this is
the point-wise inverse. -/
def euler2DInverse (C S : ℚ → ℚ) (T : Euler2D) : Euler2D :=
  let r := rot2 (C (-T.angle)) (S (-T.angle)) (T.tx, T.ty)
  ⟨-T.angle, -r.1, -r.2, T.cx, T.cy⟩

/-- A 3D rigid transform (`sitk.Euler3DTransform`): rotation angles about the
x-, y- and z-axes, a translation, and a rotation center (its fixed
parameters). -/
structure Euler3D where
  angleX : ℚ
  angleY : ℚ
  angleZ : ℚ
  tx : ℚ
  ty : ℚ
  tz : ℚ
  cx : ℚ
  cy : ℚ
  cz : ℚ
deriving DecidableEq

/-- `_get_3D_from_2D_rigid_transform_sitk` (source lines 263-279): reads the
2D parameters `(angle_z, translation_x, translation_y)` and center
`(center_x, center_y)`, builds a 3D rigid transform with
`SetRotation(0, 0, angle_z)`, translation `(tx, ty, 0)` and fixed
parameters (center) `(cx, cy, 0)`. -/
def get3DFrom2DRigidTransformSitk (T : Euler2D) : Euler3D :=
  ⟨0, 0, T.angle, T.tx, T.ty, 0, T.cx, T.cy, 0⟩

/-- Projection of a 3D rigid transform back onto the x-y plane, following the
spec's round-trip wording: take the z-rotation, the x/y translation and the
x/y center. -/
def project3DTo2DRigid (T : Euler3D) : Euler2D :=
  ⟨T.angleZ, T.tx, T.ty, T.cx, T.cy⟩

def rotZm (c s : ℚ) : Mat3 := ⟨c, -s, 0, s, c, 0, 0, 0, 1⟩

def rotXm (c s : ℚ) : Mat3 := ⟨1, 0, 0, 0, c, -s, 0, s, c⟩

def rotYm (c s : ℚ) : Mat3 := ⟨c, 0, s, 0, 1, 0, -s, 0, c⟩

/-- The rotation matrix of an `Euler3DTransform` in ITK's default angle order
`R = Rz · Rx · Ry`. -/
def euler3DMatrix (C S : ℚ → ℚ) (e : Euler3D) : Mat3 :=
  m3mul (rotZm (C e.angleZ) (S e.angleZ))
    (m3mul (rotXm (C e.angleX) (S e.angleX)) (rotYm (C e.angleY) (S e.angleY)))

/-- The affine (matrix/offset) form of a 3D rigid transform: the map
`p ↦ R(p − c) + c + t`, i.e. matrix `R` and offset `c + t − R c`.  This is how
the composition helper consumes the expanded transform. -/
def euler3DToAffine (C S : ℚ → ℚ) (e : Euler3D) : Affine3 :=
  let R := euler3DMatrix C S e
  let c : Vec3 := ⟨e.cx, e.cy, e.cz⟩
  ⟨R, v3add c (v3add ⟨e.tx, e.ty, e.tz⟩ (v3neg (m3vec R c)))⟩

/-- A projected 2D slice as consumed by the residual evaluator: its pixel
array (flattened, what `sitk.GetArrayFromImage` returns) plus the metadata
that `Slice.from_sitk_image` propagates. -/
structure Img2D where
  pixels : List ℚ
  filename : String
  sliceNumber : ℕ
deriving DecidableEq

def imgDefault : Img2D := ⟨[], "", 0⟩

/-- Element-wise subtraction of pixel arrays (numpy array subtraction on
same-shape arrays; shape agreement is enforced by the callers). -/
def listSub (a b : List ℚ) : List ℚ := List.zipWith (fun x y => x - y) a b

/-- Element-wise multiplication of pixel arrays (sitk image `*` on same-size
images; size agreement is the library's mask/image geometry contract). -/
def listMul (a b : List ℚ) : List ℚ := List.zipWith (fun x y => x * y) a b

/-- `numpy.reshape(-1, 3)`: split a flat vector into rows of 3; fails (numpy
raises) when the length is not divisible by 3. -/
def chunk3 : List ℚ → Option (List (ℚ × ℚ × ℚ))
  | [] => some []
  | a :: b :: c :: rest => (chunk3 rest).map (fun l => (a, b, c) :: l)
  | _ => none

/-- The sitk interpolator enum value `sitk.sitkLinear`. -/
def sitkLinear : ℕ := 2

/-- The type of the external resampling primitive
`sitk.Resample(moving, fixedGrid, transform, interpolator)`. -/
abbrev ResampleFun : Type :=
  Img2D → Img2D → Euler2D → ℕ → Img2D

/-- The loop body of `_get_residual_data_fit` (source lines 137-144), with the
mutable state made explicit: `t` is the single shared `Euler2DTransform`
object (line 75 builds the transform list as `[sitk.Euler2DTransform()] * N`,
so every entry aliases one object; `SetParameters` on entry `i+1` is a write
to that shared object).  `fuel` counts the remaining iterations of
`range(0, N-1)`, `i` is the current index, `prev` is `slice_i_nda`.  The
`length = V` guard models numpy's shape check when assigning a row of the
preallocated `(N-1) × V` residual matrix. -/
def residualRows (resample : ResampleFun) (interpolator : ℕ) (grid : Img2D)
    (slices : List Img2D) (groups : List (ℚ × ℚ × ℚ)) (V : ℕ) :
    ℕ → ℕ → List ℚ → Euler2D → Option (List (List ℚ) × Euler2D)
  | 0, _, _, t => some ([], t)
  | fuel + 1, i, prev, t =>
    match slices[i + 1]?, groups[i]? with
    | some s, some g =>
      let tNew := euler2DSetParameters t g
      let nda := (resample s grid tNew interpolator).pixels
      if prev.length = V ∧ nda.length = V then
        (residualRows resample interpolator grid slices groups V fuel (i + 1) nda tNew).map
          (fun r => (listSub prev nda :: r.1, r.2))
      else none
    | _, _ => none

/-- `_get_residual_data_fit` (source lines 126-146): reshape the parameter
vector into rows of 3, take the raw array of projected slice 0 as the chain
anchor, then run the resampling/difference loop; the returned vector is
`residual.flatten()` and the final state of the shared transform object is
returned explicitly. -/
def getResidualDataFit (resample : ResampleFun) (N V : ℕ)
    (slices : List Img2D) (grid : Img2D) (parametersVec : List ℚ)
    (t : Euler2D) (interpolator : ℕ := sitkLinear) :
    Option (List ℚ × Euler2D) :=
  match chunk3 parametersVec, slices[0]? with
  | some groups, some s0 =>
    (residualRows resample interpolator grid slices groups V (N - 1) 0 s0.pixels t).map
      (fun r => (r.1.flatten, r.2))
  | _, _ => none

/-- Specification-side definition of the `nda` sequence of claim C1:
`nda 0` is the raw pixel array of projected slice 0; `nda i` (for `i ≥ 1`) is
projected slice `i` resampled onto the fixed reference grid under the 2D
rigid transform whose rigid parameters are group `i-1` (and whose center `c`
is the shared transform template's center, `(0,0)` as constructed). -/
def specNda (resample : ResampleFun) (interpolator : ℕ) (grid : Img2D)
    (slices : List Img2D) (groups : List (ℚ × ℚ × ℚ)) (c : ℚ × ℚ) :
    ℕ → List ℚ
  | 0 => (slices.getD 0 imgDefault).pixels
  | j + 1 =>
    let g := groups.getD j (0, 0, 0)
    (resample (slices.getD (j + 1) imgDefault) grid
      ⟨g.1, g.2.1, g.2.2, c.1, c.2⟩ interpolator).pixels

/-- Specification-side residual of claim C1: the concatenation, in slice
order, of the blocks `nda[i-1] − nda[i]` for `i = 1 .. N-1`, each flattened. -/
def specResidual (resample : ResampleFun) (interpolator : ℕ) (grid : Img2D)
    (slices : List Img2D) (groups : List (ℚ × ℚ × ℚ)) (c : ℚ × ℚ) (N : ℕ) :
    List ℚ :=
  ((List.range (N - 1)).map (fun j =>
    listSub (specNda resample interpolator grid slices groups c j)
      (specNda resample interpolator grid slices groups c (j + 1)))).flatten

/-- A 3D slice object as stored on the heap: the image geometry (direction
matrix and origin), the mask geometry, the pixel contents of image and mask
(the slice's single in-plane plane, flattened), and identifying metadata. -/
structure SliceObj where
  direction : Mat3
  origin : Vec3
  maskDirection : Mat3
  maskOrigin : Vec3
  pixels : List ℚ
  maskPixels : List ℤ
  filename : String
  sliceNumber : ℕ
deriving DecidableEq

/-- The object heap: slice objects addressed by allocation index.  `Slice`
copies append a fresh object; in-place mutation is `List.set`. -/
abbrev Heap : Type := List SliceObj

/-- A `Stack`: its 3D image size (sitk order `(X, Y, Z)`, so
`nda_shape = size[::-1] = (Z, Y, X)`), the heap addresses of its slices, and
its filename. -/
structure StackObj where
  sizeX : ℕ
  sizeY : ℕ
  sizeZ : ℕ
  sliceIds : List ℕ
  filename : String
deriving DecidableEq

/-- `_get_list_of_3D_rigid_transforms_of_slices` (source lines 226-247): for
each slice, build the affine transform with the slice's direction matrix and
its origin as translation, then invert it. -/
def getListOf3DRigidTransformsOfSlices (h : Heap) (stack : StackObj) :
    Option (List Affine3) :=
  stack.sliceIds.mapM (fun id =>
    (h[id]?).map (fun s => affInv ⟨s.direction, s.origin⟩))

/-- Modelled from the spec: the slice's native image-to-physical transform
(`sitkh.get_sitk_affine_transform_from_sitk_image`), the affine map
`x ↦ D x + o` built from the direction matrix and origin. -/
def transformFromDirectionOrigin (d : Mat3) (o : Vec3) : Affine3 := ⟨d, o⟩

/-- The body of the projection loop of `_get_2D_projected_and_masked_slices`
(source lines 174-205) for one slice: duplicate the slice object
(`Slice.from_slice`, modelled from the spec as a structural copy appended to
the heap), compose the alignment transform with the native transform, write
the resulting direction and origin into both the image and the mask of the
copy, extract the single 2D plane (`[:,:,0]`, the whole pixel array of a
one-plane slice), and mask-weight it if `use_fixed_mask` is set (the mask is
cast to the image pixel type first). -/
def projectSlice (h : Heap) (useFixedMask : Bool) (ppT : Affine3) (id : ℕ) :
    Option (Heap × Img2D) :=
  (h[id]?).map (fun orig =>
    let j := h.length
    let h1 := h ++ [orig]
    let tPI := transformFromDirectionOrigin orig.direction orig.origin
    let tAlign := affComp ppT tPI
    -- Modelled from the spec: direction/origin recomputed so that the
    -- updated slice's native transform equals `tAlign`
    -- (`sitkh.get_sitk_image_direction_from_sitk_affine_transform` and the
    -- origin counterpart).
    let updated := { orig with
      direction := tAlign.A
      origin := tAlign.t
      maskDirection := tAlign.A
      maskOrigin := tAlign.t }
    let h2 := h1.set j updated
    let pix2D := updated.pixels
    let pix := if useFixedMask then
        listMul pix2D (updated.maskPixels.map (fun z => (z : ℚ)))
      else pix2D
    (h2, ⟨pix, updated.filename, updated.sliceNumber⟩))

/-- The projected image that `projectSlice` produces from a slice object:
the slice's pixel plane, mask-weighted when `useFixedMask` is set (with the
integer mask cast to the rational image pixel type), plus the propagated
metadata. -/
def projectedImgOf (useFixedMask : Bool) (obj : SliceObj) : Img2D :=
  ⟨if useFixedMask then
      listMul obj.pixels (obj.maskPixels.map (fun z => (z : ℚ)))
    else obj.pixels, obj.filename, obj.sliceNumber⟩

/-- The projection loop over `range(0, self._N_slices)` of
`_get_2D_projected_and_masked_slices`, threading the heap. -/
def projectLoop (useFixedMask : Bool) (ids : List ℕ) (pps : List Affine3) :
    ℕ → ℕ → Heap → Option (Heap × List Img2D)
  | 0, _, h => some (h, [])
  | fuel + 1, i, h =>
    match ids[i]?, pps[i]? with
    | some id, some pp =>
      match projectSlice h useFixedMask pp id with
      | some (h1, img) =>
        (projectLoop useFixedMask ids pps fuel (i + 1) h1).map
          (fun r => (r.1, img :: r.2))
      | none => none
    | _, _ => none

/-- `_get_2D_projected_and_masked_slices` (source lines 169-207): project
every slice of the stack; the loop bound is `self._N_slices`, the z-extent of
the stack's 3D image. -/
def get2DProjectedAndMaskedSlices (h : Heap) (useFixedMask : Bool)
    (stack : StackObj) (pps : List Affine3) : Option (Heap × List Img2D) :=
  projectLoop useFixedMask stack.sliceIds pps stack.sizeZ 0 h

/-- Modelled from the spec: `Stack.from_stack` with a filename override — a
structural copy of the stack: every slice object is copied to a fresh heap
address, the size fields are kept, the filename is replaced. -/
def stackCopyLoop (h : Heap) : List ℕ → Option (Heap × List ℕ)
  | [] => some (h, [])
  | id :: rest =>
    match h[id]? with
    | some obj =>
      (stackCopyLoop (h ++ [obj]) rest).map (fun r => (r.1, h.length :: r.2))
    | none => none

/-- Modelled from the spec: `st.Stack.from_stack(stack, filename)` — see
`stackCopyLoop`. -/
def stackFromStack (h : Heap) (stack : StackObj) (fname : String) :
    Option (Heap × StackObj) :=
  (stackCopyLoop h stack.sliceIds).map (fun r =>
    (r.1, { stack with sliceIds := r.2, filename := fname }))

/-- Modelled from the spec: `Slice.update_motion_correction(transform)` —
applies a 3D affine transform to the slice's stored placement in place,
updating image and mask geometry together and never touching pixel content:
the new native transform is `transform ∘ (direction, origin)`. -/
def updateMotionCorrectionObj (T : Affine3) (s : SliceObj) : SliceObj :=
  let newImg := affComp T (transformFromDirectionOrigin s.direction s.origin)
  let newMask := affComp T (transformFromDirectionOrigin s.maskDirection s.maskOrigin)
  { s with
    direction := newImg.A
    origin := newImg.t
    maskDirection := newMask.A
    maskOrigin := newMask.t }

/-- The per-slice loop of `_apply_motion_correction` (source lines 107-120),
threading the heap and the single reused `Euler2DTransform` object
`transform_2D_sitk` (whose parameters are overwritten each iteration while
its center persists): set the parameters from row `i`, invert, expand to 3D,
compose with the slice's alignment transform, pre-compose the inverse
alignment, apply the result to slice `i` of the copied stack, and record
it. -/
def applyLoop (C S : ℚ → ℚ) (parameters : List (ℚ × ℚ × ℚ))
    (pps : List Affine3) (ids : List ℕ) :
    ℕ → ℕ → Euler2D → Heap → Option (Heap × List Affine3)
  | 0, _, _, h => some (h, [])
  | fuel + 1, i, t2, h =>
    match parameters[i]?, pps[i]?, ids[i]? with
    | some row, some pp, some id =>
      let tSet := euler2DSetParameters t2 row
      let tInv := euler2DInverse C S tSet
      let t3 := get3DFrom2DRigidTransformSitk tInv
      let a := affComp (euler3DToAffine C S t3) pp
      let aFinal := affComp (affInv pp) a
      match h[id]? with
      | some obj =>
        (applyLoop C S parameters pps ids fuel (i + 1) tInv
            (h.set id (updateMotionCorrectionObj aFinal obj))).map
          (fun r => (r.1, aFinal :: r.2))
      | none => none
    | _, _, _ => none

/-- `_apply_motion_correction` (source lines 99-122): copy the fixed stack
with the `"_registered"` filename suffix, then run the correction loop over
`range(0, self._N_slices)` starting from a fresh `Euler2DTransform`. -/
def applyMotionCorrection (C S : ℚ → ℚ) (h : Heap) (fixed : StackObj)
    (parameters : List (ℚ × ℚ × ℚ)) (pps : List Affine3) :
    Option (Heap × StackObj × List Affine3) :=
  match stackFromStack h fixed (fixed.filename ++ "_registered") with
  | some (h1, corrected) =>
    (applyLoop C S parameters pps corrected.sliceIds fixed.sizeZ 0
        euler2DDefault h1).map
      (fun r => (r.1, corrected, r.2))
  | none => none

/-- Specification-side per-slice formula of claim C2: the applied 3D
transform is
`compose(invert(align), compose(expand_2d_rigid_to_3d(invert(rigid2D(row))), align))`,
where `rigid2D(row)` is a fresh 2D rigid transform (center `(0,0)`) with the
row's parameters. -/
def composerFormula (C S : ℚ → ℚ) (pp : Affine3) (row : ℚ × ℚ × ℚ) : Affine3 :=
  affComp (affInv pp)
    (affComp
      (euler3DToAffine C S
        (get3DFrom2DRigidTransformSitk
          (euler2DInverse C S ⟨row.1, row.2.1, row.2.2, 0, 0⟩)))
      pp)

/-- The type of the external nonlinear least-squares solver oracle
(`scipy.optimize.least_squares`): it receives the residual closure (with the
shared transform state made explicit) and the initial guess, and returns the
fitted parameter vector `res.x`. -/
abbrev SolverFun : Type :=
  (List ℚ → Euler2D → Option (List ℚ × Euler2D)) → List ℚ → List ℚ

/-- The observable outcome of a registration run. -/
structure RunResult where
  heap : Heap
  stackCorrected : StackObj
  registrationTransforms : List Affine3
  parameters : List (ℚ × ℚ × ℚ)
deriving DecidableEq

/-- `run_regularized_rigid_inplane_registration` (source lines 66-96):
compute the per-slice alignment transforms, project the slices, take
projected slice 0 as the fixed reference grid, solve the least-squares
problem from the all-zero initial guess of length `3·(N−1)`, reshape the
solved vector and prepend the zero row for slice 0, and apply the motion
correction.  `N = self._N_slices` and `V = self._N_2D_voxels` come from the
stack's 3D image size. -/
def runRegularizedRigidInplaneRegistration (C S : ℚ → ℚ)
    (resample : ResampleFun) (solver : SolverFun) (h : Heap)
    (fixed : StackObj) (useFixedMask : Bool) (useMovingMask : Bool) :
    Option RunResult :=
  let N := fixed.sizeZ
  let V := fixed.sizeY * fixed.sizeX
  match getListOf3DRigidTransformsOfSlices h fixed with
  | some pps =>
    match get2DProjectedAndMaskedSlices h useFixedMask fixed pps with
    | some (h1, projected) =>
      match projected[0]? with
      | some grid =>
        let x0 : List ℚ := List.replicate (3 * (N - 1)) 0
        let resX := solver
          (fun x t => getResidualDataFit resample N V projected grid x t) x0
        match chunk3 resX with
        | some groups =>
          let parameters : List (ℚ × ℚ × ℚ) := (0, 0, 0) :: groups
          (applyMotionCorrection C S h1 fixed parameters pps).map
            (fun r => ⟨r.1, r.2.1, r.2.2, parameters⟩)
        | none => none
      | none => none
    | none => none
  | none => none

/-- The observable value of a stack: its filename together with the slice
objects its addresses denote in a given heap. -/
def stackValue (h : Heap) (st : StackObj) : String × List (Option SliceObj) :=
  (st.filename, st.sliceIds.map (fun id => h[id]?))

/-! Concrete fixtures used by the witness theorems. -/

/-- Witness resample oracle: ignores its arguments and returns a fixed
one-pixel image. -/
def wResample : ResampleFun := fun _ _ _ _ => ⟨[5], "", 0⟩

/-- Witness slice list: two projected one-pixel slices. -/
def wSlices : List Img2D := [⟨[3], "a", 0⟩, ⟨[4], "b", 1⟩]

/-- Witness reference grid. -/
def wGrid : Img2D := ⟨[0], "", 0⟩

/-- Witness cosine oracle (the constant 1, satisfying every trigonometric law
the theorems assume). -/
def wC : ℚ → ℚ := fun _ => 1

/-- Witness sine oracle (the constant 0). -/
def wS : ℚ → ℚ := fun _ => 0

/-- Witness solver oracle: returns the initial guess unchanged. -/
def wSolver : SolverFun := fun _ x0 => x0

/-- Witness slice object with identity placement. -/
def wSliceObj : SliceObj :=
  ⟨m3id, v3zero, m3id, v3zero, [1], [1], "s", 0⟩

/-- Witness heap holding the single witness slice. -/
def wHeap : Heap := [wSliceObj]

/-- Witness one-slice stack (1x1 in-plane, one slice). -/
def wStack : StackObj := ⟨1, 1, 1, [0], "stk"⟩

end RegInPlane

namespace RegInPlane

/-! ### Algebraic lemmas on the transform embedding -/

theorem m3mul_id_left (a : Mat3) : m3mul m3id a = a := by
  cases a; simp [m3mul, m3id]

theorem m3mul_id_right (a : Mat3) : m3mul a m3id = a := by
  cases a; simp [m3mul, m3id]

theorem m3vec_zero (a : Mat3) : m3vec a v3zero = v3zero := by
  cases a; simp [m3vec, v3zero]

theorem m3vec_id (v : Vec3) : m3vec m3id v = v := by
  cases v; simp [m3vec, m3id]

theorem m3det_id : m3det m3id = 1 := by
  simp [m3det, m3id]

theorem m3det_mul (a b : Mat3) : m3det (m3mul a b) = m3det a * m3det b := by
  cases a; cases b; simp only [m3mul, m3det]; ring

theorem m3inv_mul (a : Mat3) (hd : m3det a ≠ 0) : m3mul (m3inv a) a = m3id := by
  cases a
  simp only [m3det] at hd
  simp only [m3inv, m3smul, m3adj, m3det, m3mul, m3id, Mat3.mk.injEq]
  refine ⟨?_, ?_, ?_, ?_, ?_, ?_, ?_, ?_, ?_⟩ <;> field_simp <;> ring

theorem m3det_m3inv_ne_zero (a : Mat3) (hd : m3det a ≠ 0) :
    m3det (m3inv a) ≠ 0 := by
  have h1 : m3det (m3inv a) * m3det a = 1 := by
    rw [← m3det_mul, m3inv_mul a hd, m3det_id]
  exact left_ne_zero_of_mul_eq_one h1

theorem affComp_id_left (T : Affine3) : affComp affId T = T := by
  cases T with
  | mk A t => simp [affComp, affId, m3mul_id_left, m3vec_id, v3add, v3zero]

theorem affApply_affId (p : Vec3) : affApply affId p = p := by
  cases p; simp [affApply, affId, m3vec_id, v3add, v3zero, m3vec, m3id]

theorem v3add_neg (v : Vec3) : v3add v (v3neg v) = v3zero := by
  cases v; simp [v3add, v3neg, v3zero]

theorem affComp_affInv_self (T : Affine3) (hd : m3det T.A ≠ 0) :
    affComp (affInv T) T = affId := by
  cases T with
  | mk A t =>
    simp only [affComp, affInv, affId] at *
    rw [m3inv_mul A hd, v3add_neg]

/-- The affine composition helper is point-wise `outer(inner(x))`, the spec's
contract for `compose`. -/
theorem affComp_apply (o i : Affine3) (p : Vec3) :
    affApply (affComp o i) p = affApply o (affApply i p) := by
  cases o with
  | mk A t =>
    cases i with
    | mk B u =>
      cases p
      simp only [affApply, affComp, m3mul, m3vec, v3add, Vec3.mk.injEq]
      refine ⟨?_, ?_, ?_⟩ <;> ring

/-- The modelled 2D rigid inverse is the point-wise inverse of the 2D rigid
map, under the trigonometric laws the real cosine and sine satisfy. -/
theorem euler2DInverse_apply (C S : ℚ → ℚ)
    (hce : ∀ x, C (-x) = C x) (hso : ∀ x, S (-x) = -S x)
    (hpy : ∀ x, C x * C x + S x * S x = 1)
    (T : Euler2D) (p : ℚ × ℚ) :
    euler2DApply C S (euler2DInverse C S T) (euler2DApply C S T p) = p := by
  cases T with
  | mk a tx ty cx cy =>
    cases p with
    | mk px py =>
      have h := hpy a
      simp only [euler2DApply, euler2DInverse, rot2, hce, hso, neg_neg, Prod.mk.injEq]
      constructor
      · linear_combination (px - cx) * h
      · linear_combination (py - cy) * h

theorem euler2DInverse_center (C S : ℚ → ℚ) (T : Euler2D) :
    (euler2DInverse C S T).cx = T.cx ∧ (euler2DInverse C S T).cy = T.cy := by
  simp [euler2DInverse]

/-- Inverting the all-zero 2D rigid transform gives back the all-zero
transform, whatever the trigonometric oracle is. -/
theorem euler2DInverse_default (C S : ℚ → ℚ) :
    euler2DInverse C S euler2DDefault = euler2DDefault := by
  simp [euler2DInverse, euler2DDefault, rot2]

/-- Expanding the all-zero 2D rigid transform and converting to affine form
yields the identity affine transform, given `cos 0 = 1` and `sin 0 = 0`. -/
theorem euler3DToAffine_default (C S : ℚ → ℚ) (hC0 : C 0 = 1) (hS0 : S 0 = 0) :
    euler3DToAffine C S (get3DFrom2DRigidTransformSitk euler2DDefault) = affId := by
  simp only [euler3DToAffine, euler3DMatrix, get3DFrom2DRigidTransformSitk,
    euler2DDefault, rotZm, rotXm, rotYm, hC0, hS0, affId]
  norm_num [m3mul, m3id, m3vec, v3add, v3neg, v3zero]

/-- The Correction Composer formula at the zero parameter row is the identity
transform (given an invertible alignment). -/
theorem composerFormula_zero (C S : ℚ → ℚ) (hC0 : C 0 = 1) (hS0 : S 0 = 0)
    (pp : Affine3) (hd : m3det pp.A ≠ 0) :
    composerFormula C S pp (0, 0, 0) = affId := by
  have h1 : (⟨(0 : ℚ), 0, 0, 0, 0⟩ : Euler2D) = euler2DDefault := rfl
  rw [composerFormula, h1, euler2DInverse_default, euler3DToAffine_default C S hC0 hS0,
    affComp_id_left, affComp_affInv_self pp hd]

/-! ### Lemmas on the residual evaluator -/

theorem chunk3_of_length (k : ℕ) : ∀ l : List ℚ, l.length = 3 * k →
    ∃ g, chunk3 l = some g ∧ g.length = k := by
  induction k with
  | zero =>
    intro l hl
    have h0 : l = [] := List.eq_nil_of_length_eq_zero (by omega)
    exact ⟨[], by simp [h0, chunk3], rfl⟩
  | succ n ih =>
    intro l hl
    rcases l with _ | ⟨a, _ | ⟨b, _ | ⟨c, rest⟩⟩⟩
    · simp at hl
    · simp at hl; omega
    · simp at hl; omega
    · have hr : rest.length = 3 * n := by simp at hl; omega
      obtain ⟨g, hg, hlen⟩ := ih rest hr
      exact ⟨(a, b, c) :: g, by simp [chunk3, hg], by simp [hlen]⟩

theorem range_map_succ_shift {α : Type} (F : ℕ → α) (m i : ℕ) :
    (List.range (m + 1)).map (fun j => F (i + j)) =
      F i :: (List.range m).map (fun j => F (i + 1 + j)) := by
  rw [List.range_succ_eq_map, List.map_cons, List.map_map]
  refine congrArg₂ List.cons (by rw [Nat.add_zero]) ?_
  exact List.map_congr_left (fun a _ => by
    simp only [Function.comp_apply]
    congr 1
    omega)

theorem specNda_length (resample : ResampleFun) (interp : ℕ) (grid : Img2D)
    (slices : List Img2D) (groups : List (ℚ × ℚ × ℚ)) (c : ℚ × ℚ) (V : ℕ)
    (hres : ∀ s tr, (resample s grid tr interp).pixels.length = V)
    (h0 : (slices.getD 0 imgDefault).pixels.length = V) :
    ∀ j, (specNda resample interp grid slices groups c j).length = V := by
  intro j
  cases j with
  | zero => exact h0
  | succ n => simp only [specNda]; exact hres _ _

/-- The resampling/difference loop computes the spec-side blocks: starting
from `nda[i]` with a transform whose center is `c`, running `fuel` more
iterations yields exactly the blocks `nda[i+j] − nda[i+j+1]` for
`j < fuel`, and a final transform state with the same center. -/
theorem residualRows_eq_spec (resample : ResampleFun) (interp : ℕ) (grid : Img2D)
    (slices : List Img2D) (groups : List (ℚ × ℚ × ℚ)) (V : ℕ) (c : ℚ × ℚ)
    (hres : ∀ s tr, (resample s grid tr interp).pixels.length = V) :
    ∀ (fuel i : ℕ) (t : Euler2D), t.cx = c.1 → t.cy = c.2 →
    i + fuel + 1 ≤ slices.length →
    i + fuel ≤ groups.length →
    (specNda resample interp grid slices groups c i).length = V →
    ∃ tf,
      residualRows resample interp grid slices groups V fuel i
        (specNda resample interp grid slices groups c i) t
      = some ((List.range fuel).map (fun j =>
          listSub (specNda resample interp grid slices groups c (i + j))
            (specNda resample interp grid slices groups c (i + j + 1))), tf)
      ∧ tf.cx = c.1 ∧ tf.cy = c.2 := by
  intro fuel
  induction fuel with
  | zero =>
    intro i t hx hy _ _ _
    exact ⟨t, by simp [residualRows], hx, hy⟩
  | succ n ih =>
    intro i t hx hy hs hg hprev
    have hi1 : i + 1 < slices.length := by omega
    have hig : i < groups.length := by omega
    have hs1 : slices[i + 1]? = some (slices.getD (i + 1) imgDefault) := by
      rw [List.getElem?_eq_getElem hi1, List.getD_eq_getElem slices imgDefault hi1]
    have hg1 : groups[i]? = some (groups.getD i (0, 0, 0)) := by
      rw [List.getElem?_eq_getElem hig, List.getD_eq_getElem groups (0, 0, 0) hig]
    have hset : euler2DSetParameters t (groups.getD i (0, 0, 0)) =
        ⟨(groups.getD i (0, 0, 0)).1, (groups.getD i (0, 0, 0)).2.1,
         (groups.getD i (0, 0, 0)).2.2, c.1, c.2⟩ := by
      simp [euler2DSetParameters, hx, hy]
    have hnda : (resample (slices.getD (i + 1) imgDefault) grid
        (euler2DSetParameters t (groups.getD i (0, 0, 0))) interp).pixels =
        specNda resample interp grid slices groups c (i + 1) := by
      rw [hset]; simp only [specNda]
    obtain ⟨tf, hrec, hfx, hfy⟩ := ih (i + 1)
      (euler2DSetParameters t (groups.getD i (0, 0, 0)))
      (by simp [euler2DSetParameters, hx]) (by simp [euler2DSetParameters, hy])
      (by omega) (by omega)
      (by rw [← hnda]; exact hres _ _)
    refine ⟨tf, ?_, hfx, hfy⟩
    rw [residualRows, hs1, hg1]
    simp only [hnda]
    rw [if_pos ⟨hprev, by simp only [specNda]; exact hres _ _⟩]
    rw [hrec]
    refine congrArg some (congrArg₂ Prod.mk ?_ rfl)
    rw [range_map_succ_shift
      (fun j => listSub (specNda resample interp grid slices groups c j)
        (specNda resample interp grid slices groups c (j + 1))) n i]

theorem sum_map_const {α : Type} (l : List α) (c : ℕ) :
    (l.map (fun _ => c)).sum = l.length * c := by
  induction l with
  | nil => simp
  | cons a rest ih => simp [ih, Nat.succ_mul, Nat.add_comm]

theorem specResidual_length (resample : ResampleFun) (interp : ℕ) (grid : Img2D)
    (slices : List Img2D) (groups : List (ℚ × ℚ × ℚ)) (c : ℚ × ℚ) (V N : ℕ)
    (hres : ∀ s tr, (resample s grid tr interp).pixels.length = V)
    (h0 : (slices.getD 0 imgDefault).pixels.length = V) :
    (specResidual resample interp grid slices groups c N).length = (N - 1) * V := by
  rw [specResidual, List.length_flatten, List.map_map]
  have hmap : (List.range (N - 1)).map
      (List.length ∘ fun j =>
        listSub (specNda resample interp grid slices groups c j)
          (specNda resample interp grid slices groups c (j + 1))) =
      (List.range (N - 1)).map (fun _ => V) := by
    refine List.map_congr_left (fun j _ => ?_)
    simp only [Function.comp_apply, listSub, List.length_zipWith,
      specNda_length resample interp grid slices groups c V hres h0]
    exact Nat.min_self V
  rw [hmap, sum_map_const, List.length_range]

/-- The final transform state returned by the resampling loop keeps the
center of the incoming state (only the rigid parameters are written). -/
theorem residualRows_center (resample : ResampleFun) (interp : ℕ) (grid : Img2D)
    (slices : List Img2D) (groups : List (ℚ × ℚ × ℚ)) (V : ℕ) :
    ∀ (fuel i : ℕ) (prev : List ℚ) (t : Euler2D) (rows : List (List ℚ))
      (tf : Euler2D),
    residualRows resample interp grid slices groups V fuel i prev t =
      some (rows, tf) →
    tf.cx = t.cx ∧ tf.cy = t.cy := by
  intro fuel
  induction fuel with
  | zero =>
    intro i prev t rows tf h
    simp only [residualRows, Option.some.injEq, Prod.mk.injEq] at h
    rw [← h.2]
    exact ⟨rfl, rfl⟩
  | succ n ih =>
    intro i prev t rows tf h
    rw [residualRows] at h
    cases hs : slices[i + 1]? with
    | none => rw [hs] at h; simp at h
    | some s =>
      cases hg : groups[i]? with
      | none => rw [hs, hg] at h; simp at h
      | some g =>
        rw [hs, hg] at h
        simp only at h
        split_ifs at h with hguard
        cases hr : residualRows resample interp grid slices groups V n (i + 1)
            ((resample s grid (euler2DSetParameters t g) interp).pixels)
            (euler2DSetParameters t g) with
        | none => rw [hr] at h; simp at h
        | some r =>
          rw [hr] at h
          simp only [Option.map_some', Option.some.injEq, Prod.mk.injEq] at h
          obtain ⟨rows0, tf0⟩ := r
          obtain ⟨hcx, hcy⟩ := ih (i + 1) _ (euler2DSetParameters t g) rows0 tf0 hr
          rw [← h.2]
          simp only [euler2DSetParameters] at hcx hcy
          exact ⟨hcx, hcy⟩

/-- The rows returned by the resampling loop do not depend on the rigid
parameters carried in the incoming transform state, only on its center
(the parameters are overwritten before every use). -/
theorem residualRows_congr_center (resample : ResampleFun) (interp : ℕ)
    (grid : Img2D) (slices : List Img2D) (groups : List (ℚ × ℚ × ℚ)) (V : ℕ)
    (fuel i : ℕ) (prev : List ℚ) (t t' : Euler2D)
    (hx : t.cx = t'.cx) (hy : t.cy = t'.cy) :
    Option.map Prod.fst
      (residualRows resample interp grid slices groups V fuel i prev t) =
    Option.map Prod.fst
      (residualRows resample interp grid slices groups V fuel i prev t') := by
  cases fuel with
  | zero => simp [residualRows]
  | succ n =>
    rw [residualRows, residualRows]
    have hset : ∀ g, euler2DSetParameters t g = euler2DSetParameters t' g := by
      intro g; simp [euler2DSetParameters, hx, hy]
    cases hs : slices[i + 1]? with
    | none => rfl
    | some s =>
      cases hg : groups[i]? with
      | none => rfl
      | some g => simp only [hset g]

/-- The residual vector returned by the evaluator does not depend on the
rigid parameters carried in the incoming transform state. -/
theorem getResidualDataFit_congr_center (resample : ResampleFun) (N V : ℕ)
    (slices : List Img2D) (grid : Img2D) (pvec : List ℚ) (interp : ℕ)
    (t t' : Euler2D) (hx : t.cx = t'.cx) (hy : t.cy = t'.cy) :
    Option.map Prod.fst (getResidualDataFit resample N V slices grid pvec t interp) =
    Option.map Prod.fst (getResidualDataFit resample N V slices grid pvec t' interp) := by
  rw [getResidualDataFit, getResidualDataFit]
  cases hc : chunk3 pvec with
  | none => rfl
  | some groups =>
    cases hs : slices[0]? with
    | none => rfl
    | some s0 =>
      simp only [Option.map_map]
      have h := residualRows_congr_center resample interp grid slices groups V
        (N - 1) 0 s0.pixels t t' hx hy
      have h2 := congrArg (Option.map List.flatten) h
      simpa [Option.map_map, Function.comp] using h2

/-- The evaluator's final transform state keeps the incoming center. -/
theorem getResidualDataFit_center (resample : ResampleFun) (N V : ℕ)
    (slices : List Img2D) (grid : Img2D) (pvec : List ℚ) (interp : ℕ)
    (t : Euler2D) (r : List ℚ) (tf : Euler2D)
    (h : getResidualDataFit resample N V slices grid pvec t interp = some (r, tf)) :
    tf.cx = t.cx ∧ tf.cy = t.cy := by
  rw [getResidualDataFit] at h
  cases hc : chunk3 pvec with
  | none => rw [hc] at h; simp at h
  | some groups =>
    cases hs : slices[0]? with
    | none => rw [hc, hs] at h; simp at h
    | some s0 =>
      rw [hc, hs] at h
      simp only at h
      cases hr : residualRows resample interp grid slices groups V (N - 1) 0
          s0.pixels t with
      | none => rw [hr] at h; simp at h
      | some rr =>
        rw [hr] at h
        simp only [Option.map_some', Option.some.injEq, Prod.mk.injEq] at h
        obtain ⟨rows0, tf0⟩ := rr
        have := residualRows_center resample interp grid slices groups V
          (N - 1) 0 s0.pixels t rows0 tf0 hr
        rw [← h.2]
        exact this

/-! ### Lemmas on the heap-threaded pipeline -/

theorem lookupMapM_spec (h : Heap) :
    ∀ ids : List ℕ, (∀ id ∈ ids, id < h.length) →
    ∃ pps, ids.mapM (fun id => (h[id]?).map
        (fun s => affInv ⟨s.direction, s.origin⟩)) = some pps ∧
      pps.length = ids.length ∧
      ∀ j, j < ids.length → ∃ id obj, ids[j]? = some id ∧ h[id]? = some obj ∧
        pps[j]? = some (affInv ⟨obj.direction, obj.origin⟩) := by
  intro ids
  induction ids with
  | nil => intro _; exact ⟨[], rfl, rfl, fun j hj => by simp at hj⟩
  | cons id rest ih =>
    intro hval
    have hid : id < h.length := hval id (List.mem_cons_self id rest)
    have hobj : h[id]? = some h[id] := List.getElem?_eq_getElem hid
    obtain ⟨pps, hmap, hlen, hcont⟩ := ih (fun x hx => hval x (List.mem_cons_of_mem id hx))
    refine ⟨affInv ⟨h[id].direction, h[id].origin⟩ :: pps, ?_, by simp [hlen], ?_⟩
    · rw [List.mapM_cons, hobj, hmap]; rfl
    · intro j hj
      cases j with
      | zero => exact ⟨id, h[id], by simp, hobj, by simp⟩
      | succ m =>
        obtain ⟨id1, obj1, h1, h2, h3⟩ := hcont m (by simpa using hj)
        exact ⟨id1, obj1, by simpa using h1, h2, by simpa using h3⟩

theorem getListOf3DRigidTransforms_spec (h : Heap) (stack : StackObj)
    (hval : ∀ id ∈ stack.sliceIds, id < h.length) :
    ∃ pps, getListOf3DRigidTransformsOfSlices h stack = some pps ∧
      pps.length = stack.sliceIds.length ∧
      ∀ j, j < stack.sliceIds.length → ∃ id obj,
        stack.sliceIds[j]? = some id ∧ h[id]? = some obj ∧
        pps[j]? = some (affInv ⟨obj.direction, obj.origin⟩) :=
  lookupMapM_spec h stack.sliceIds hval

theorem projectSlice_spec (h : Heap) (u : Bool) (pp : Affine3) (id : ℕ)
    (obj : SliceObj) (hobj : h[id]? = some obj) :
    ∃ h2, projectSlice h u pp id = some (h2, projectedImgOf u obj) ∧
      h2.length = h.length + 1 ∧
      ∀ k, k < h.length → h2[k]? = h[k]? := by
  refine ⟨_, by rw [projectSlice, hobj]; rfl, by simp, ?_⟩
  intro k hk
  have hne : h.length ≠ k := by omega
  rw [List.getElem?_set_ne hne]
  simp [List.getElem?_append, hk]

theorem projectLoop_spec (u : Bool) (ids : List ℕ) (pps : List Affine3) :
    ∀ (fuel i : ℕ) (h : Heap),
    (∀ j, j < fuel → ∃ id, ids[i + j]? = some id ∧ id < h.length) →
    (∀ j, j < fuel → (pps[i + j]?).isSome) →
    ∃ h1 imgs, projectLoop u ids pps fuel i h = some (h1, imgs) ∧
      imgs.length = fuel ∧
      h1.length = h.length + fuel ∧
      (∀ k, k < h.length → h1[k]? = h[k]?) ∧
      (∀ j, j < fuel → ∃ id obj, ids[i + j]? = some id ∧ h[id]? = some obj ∧
        imgs[j]? = some (projectedImgOf u obj)) := by
  intro fuel
  induction fuel with
  | zero =>
    intro i h _ _
    exact ⟨h, [], by simp [projectLoop], rfl, rfl, fun k _ => rfl,
      fun j hj => by simp at hj⟩
  | succ n ih =>
    intro i h hval hpps
    obtain ⟨id, hid, hidlt⟩ := hval 0 (Nat.succ_pos n)
    rw [Nat.add_zero] at hid
    have hpp0 := hpps 0 (Nat.succ_pos n)
    rw [Nat.add_zero] at hpp0
    obtain ⟨pp, hpp⟩ := Option.isSome_iff_exists.mp hpp0
    have hobj : h[id]? = some h[id] := List.getElem?_eq_getElem hidlt
    obtain ⟨h2, hps, hlen2, hframe2⟩ := projectSlice_spec h u pp id h[id] hobj
    obtain ⟨h1, imgs, hloop, hilen, hexact, hframe, hcont⟩ := ih (i + 1) h2
      (fun j hj => by
        obtain ⟨id1, hid1, hlt1⟩ := hval (j + 1) (by omega)
        refine ⟨id1, ?_, by omega⟩
        rw [show i + 1 + j = i + (j + 1) by omega]
        exact hid1)
      (fun j hj => by
        have := hpps (j + 1) (by omega)
        rw [show i + 1 + j = i + (j + 1) by omega]
        exact this)
    refine ⟨h1, projectedImgOf u h[id] :: imgs, ?_, by simp [hilen], by omega, ?_, ?_⟩
    · rw [projectLoop, hid, hpp]
      simp only [hps, hloop, Option.map_some']
    · intro k hk
      rw [hframe k (by omega), hframe2 k hk]
    · intro j hj
      cases j with
      | zero => exact ⟨id, h[id], by simpa using hid, hobj, by simp⟩
      | succ m =>
        obtain ⟨id1, obj1, h1a, h1b, h1c⟩ := hcont m (by omega)
        rw [show i + 1 + m = i + (m + 1) by omega] at h1a
        obtain ⟨id1a, hid1a, hlt1a⟩ := hval (m + 1) (by omega)
        have hideq : id1 = id1a := by rw [h1a] at hid1a; exact Option.some.inj hid1a
        subst hideq
        refine ⟨id1, obj1, h1a, ?_, by simpa using h1c⟩
        rw [← hframe2 id1 hlt1a]
        exact h1b

theorem stackCopyLoop_spec :
    ∀ (ids : List ℕ) (h : Heap), (∀ id ∈ ids, id < h.length) →
    ∃ h1 newIds, stackCopyLoop h ids = some (h1, newIds) ∧
      newIds = List.range' h.length ids.length ∧
      h1.length = h.length + ids.length ∧
      (∀ k, k < h.length → h1[k]? = h[k]?) ∧
      (∀ j, j < ids.length → ∃ id, ids[j]? = some id ∧
        h1[h.length + j]? = h[id]?) := by
  intro ids
  induction ids with
  | nil =>
    intro h _
    exact ⟨h, [], rfl, rfl, by simp, fun k _ => rfl, fun j hj => by simp at hj⟩
  | cons id rest ih =>
    intro h hval
    have hid : id < h.length := hval id (List.mem_cons_self id rest)
    have hobj : h[id]? = some h[id] := List.getElem?_eq_getElem hid
    obtain ⟨h1, newIds, hloop, hnew, hlen, hframe, hcont⟩ := ih (h ++ [h[id]])
      (fun x hx => by
        have := hval x (List.mem_cons_of_mem id hx)
        simp only [List.length_append, List.length_cons, List.length_nil]
        omega)
    have happlen : (h ++ [h[id]]).length = h.length + 1 := by simp
    refine ⟨h1, h.length :: newIds, ?_, ?_,
      by simp only [hlen, List.length_append, List.length_cons, List.length_nil]; omega,
      ?_, ?_⟩
    · rw [stackCopyLoop, hobj]
      simp only [hloop, Option.map_some']
    · rw [hnew, happlen, List.length_cons, List.range'_succ]
    · intro k hk
      rw [hframe k (by omega)]
      simp [List.getElem?_append, hk]
    · intro j hj
      cases j with
      | zero =>
        refine ⟨id, by simp, ?_⟩
        rw [Nat.add_zero, hframe h.length (by omega)]
        rw [List.getElem?_concat_length, hobj]
      | succ m =>
        obtain ⟨id1, h1a, h1b⟩ := hcont m (by simpa using hj)
        refine ⟨id1, by simpa using h1a, ?_⟩
        rw [show h.length + (m + 1) = (h ++ [h[id]]).length + m by simp; omega, h1b]
        have hlt1 : id1 < h.length := hval id1
          (List.mem_cons_of_mem id (List.getElem?_mem h1a))
        simp [List.getElem?_append, hlt1]

/-- The correction loop over fresh consecutive slice addresses
`range' a n`: it succeeds, returns exactly the composer-formula transform
for every row, touches only the addressed entries, and rewrites entry
`a+i+j` with the motion-correction update for row `i+j`. -/
theorem applyLoop_spec (C S : ℚ → ℚ) (params : List (ℚ × ℚ × ℚ))
    (pps : List Affine3) (a n : ℕ) :
    ∀ (fuel i : ℕ) (t2 : Euler2D) (h : Heap),
    i + fuel ≤ n →
    (∀ j, j < fuel → (params[i + j]?).isSome) →
    (∀ j, j < fuel → (pps[i + j]?).isSome) →
    (∀ j, j < fuel → a + i + j < h.length) →
    t2.cx = 0 → t2.cy = 0 →
    ∃ h1 ts, applyLoop C S params pps (List.range' a n) fuel i t2 h = some (h1, ts) ∧
      ts.length = fuel ∧
      (∀ j, j < fuel → ts[j]? = some (composerFormula C S (pps.getD (i + j) affId)
        (params.getD (i + j) (0, 0, 0)))) ∧
      (∀ k, k < a + i → h1[k]? = h[k]?) ∧
      (∀ k, a + i + fuel ≤ k → h1[k]? = h[k]?) ∧
      (∀ j, j < fuel → h1[a + i + j]? = (h[a + i + j]?).map
        (updateMotionCorrectionObj (composerFormula C S (pps.getD (i + j) affId)
          (params.getD (i + j) (0, 0, 0))))) := by
  intro fuel
  induction fuel with
  | zero =>
    intro i t2 h _ _ _ _ _ _
    exact ⟨h, [], by simp [applyLoop], rfl, fun j hj => by simp at hj,
      fun k _ => rfl, fun k _ => rfl, fun j hj => by simp at hj⟩
  | succ m ih =>
    intro i t2 h hn hpar hpps hlt hx hy
    have hin : i < n := by omega
    have hrid : (List.range' a n)[i]? = some (a + i) := by
      simp [List.getElem?_range', hin]
    have hp0 := hpar 0 (Nat.succ_pos m)
    rw [Nat.add_zero] at hp0
    obtain ⟨row, hrow⟩ := Option.isSome_iff_exists.mp hp0
    have hq0 := hpps 0 (Nat.succ_pos m)
    rw [Nat.add_zero] at hq0
    obtain ⟨pp, hpp⟩ := Option.isSome_iff_exists.mp hq0
    have hlt0 := hlt 0 (Nat.succ_pos m)
    rw [Nat.add_zero] at hlt0
    have hobj : h[a + i]? = some h[a + i] := List.getElem?_eq_getElem hlt0
    have hset : euler2DSetParameters t2 row = ⟨row.1, row.2.1, row.2.2, 0, 0⟩ := by
      simp [euler2DSetParameters, hx, hy]
    have hgetrow : params.getD i (0, 0, 0) = row := by
      simp [List.getD, hrow]
    have hgetpp : pps.getD i affId = pp := by
      simp [List.getD, hpp]
    have hform : affComp (affInv pp)
        (affComp (euler3DToAffine C S (get3DFrom2DRigidTransformSitk
          (euler2DInverse C S (euler2DSetParameters t2 row)))) pp) =
        composerFormula C S (pps.getD i affId) (params.getD i (0, 0, 0)) := by
      rw [hset, hgetrow, hgetpp, composerFormula]
    obtain ⟨h1, ts, hloop, htlen, htcont, hflo, hfhi, hcont⟩ := ih (i + 1)
      (euler2DInverse C S (euler2DSetParameters t2 row))
      (h.set (a + i) (updateMotionCorrectionObj
        (composerFormula C S (pps.getD i affId) (params.getD i (0, 0, 0))) h[a + i]))
      (by omega)
      (fun j hj => by
        have := hpar (j + 1) (by omega)
        rw [show i + 1 + j = i + (j + 1) by omega]; exact this)
      (fun j hj => by
        have := hpps (j + 1) (by omega)
        rw [show i + 1 + j = i + (j + 1) by omega]; exact this)
      (fun j hj => by
        have := hlt (j + 1) (by omega)
        simp only [List.length_set]
        omega)
      (by rw [hset]; rfl) (by rw [hset]; rfl)
    refine ⟨h1,
      composerFormula C S (pps.getD i affId) (params.getD i (0, 0, 0)) :: ts,
      ?_, by simp [htlen], ?_, ?_, ?_, ?_⟩
    · rw [applyLoop, hrid, hrow, hpp]
      simp only [hobj, hform, hloop, Option.map_some']
    · intro j hj
      cases j with
      | zero => simp
      | succ k =>
        have := htcont k (by omega)
        rw [show i + 1 + k = i + (k + 1) by omega] at this
        simpa using this
    · intro k hk
      rw [hflo k (by omega), List.getElem?_set_ne (by omega : a + i ≠ k)]
    · intro k hk
      rw [hfhi k (by omega), List.getElem?_set_ne (by omega : a + i ≠ k)]
    · intro j hj
      cases j with
      | zero =>
        rw [Nat.add_zero, hflo (a + i) (by omega),
          List.getElem?_set_eq_of_lt _ hlt0, hobj]
        rfl
      | succ k =>
        have := hcont k (by omega)
        rw [show i + 1 + k = i + (k + 1) by omega] at this
        rw [show a + i + (k + 1) = a + (i + 1) + k by omega]
        rw [show a + (i + 1) + k = a + i + (k + 1) by omega] at this ⊢
        rw [this, List.getElem?_set_ne (by omega : a + i ≠ a + i + (k + 1))]

/-- `_apply_motion_correction` succeeds on valid inputs and returns, for
every slice index, exactly the composer-formula transform. -/
theorem applyMotionCorrection_spec (C S : ℚ → ℚ) (h : Heap) (fixed : StackObj)
    (params : List (ℚ × ℚ × ℚ)) (pps : List Affine3)
    (hids : ∀ id ∈ fixed.sliceIds, id < h.length)
    (hsz : fixed.sliceIds.length = fixed.sizeZ)
    (hpar : fixed.sizeZ ≤ params.length)
    (hpps : fixed.sizeZ ≤ pps.length) :
    ∃ h1 st ts, applyMotionCorrection C S h fixed params pps = some (h1, st, ts) ∧
      st.filename = fixed.filename ++ "_registered" ∧
      st.sliceIds = List.range' h.length fixed.sizeZ ∧
      ts.length = fixed.sizeZ ∧
      (∀ j, j < fixed.sizeZ → ts[j]? = some (composerFormula C S
        (pps.getD j affId) (params.getD j (0, 0, 0)))) ∧
      (∀ k, k < h.length → h1[k]? = h[k]?) ∧
      (∀ j, j < fixed.sizeZ → ∃ id, fixed.sliceIds[j]? = some id ∧
        h1[h.length + j]? = (h[id]?).map (updateMotionCorrectionObj
          (composerFormula C S (pps.getD j affId) (params.getD j (0, 0, 0))))) := by
  obtain ⟨hc, newIds, hcopy, hnew, hclen, hcframe, hccont⟩ :=
    stackCopyLoop_spec fixed.sliceIds h hids
  obtain ⟨h1, ts, hloop, htlen, htcont, hflo, hfhi, hcont⟩ :=
    applyLoop_spec C S params pps h.length fixed.sizeZ fixed.sizeZ 0
      euler2DDefault hc (by omega)
      (fun j hj => by
        have hjp : j < params.length := by omega
        rw [Nat.zero_add, List.getElem?_eq_getElem hjp]
        rfl)
      (fun j hj => by
        have hjp : j < pps.length := by omega
        rw [Nat.zero_add, List.getElem?_eq_getElem hjp]
        rfl)
      (fun j hj => by omega)
      rfl rfl
  refine ⟨h1,
    { fixed with
      sliceIds := newIds
      filename := fixed.filename ++ "_registered" },
    ts, ?_, rfl, ?_, htlen, ?_, ?_, ?_⟩
  · rw [applyMotionCorrection, stackFromStack]
    rw [hcopy]
    simp only [Option.map_some']
    have hnsz : newIds = List.range' h.length fixed.sizeZ := by rw [hnew, hsz]
    rw [hnsz]
    simp only [hloop, Option.map_some']
  · rw [hnew, hsz]
  · intro j hj
    have := htcont j hj
    rw [Nat.zero_add] at this
    exact this
  · intro k hk
    rw [hflo k (by omega), hcframe k hk]
  · intro j hj
    obtain ⟨id, hida, hidb⟩ := hccont j (by omega)
    refine ⟨id, hida, ?_⟩
    have h2 := hcont j hj
    simp only [Nat.zero_add, Nat.add_zero] at h2
    rw [h2, hidb]

theorem v3add_zero (v : Vec3) : v3add v v3zero = v := by
  cases v; simp [v3add, v3zero]

/-- Applying the identity motion-correction transform leaves a slice object
unchanged. -/
theorem updateMotionCorrectionObj_id (s : SliceObj) :
    updateMotionCorrectionObj affId s = s := by
  cases s
  simp [updateMotionCorrectionObj, transformFromDirectionOrigin, affComp,
    affId, m3mul_id_left, m3vec_id, v3add_zero]

theorem getD_of_getElem? {α : Type} (l : List α) (j : ℕ) (x d : α)
    (h : l[j]? = some x) : l.getD j d = x := by
  simp [List.getD, h]

/-- With a single slice (`N = 1`), the residual evaluator succeeds on the
empty parameter vector and returns the empty residual with the transform
state untouched. -/
theorem getResidualDataFit_one (resample : ResampleFun) (V : ℕ)
    (slices : List Img2D) (grid : Img2D) (t : Euler2D) (interp : ℕ)
    (s0 : Img2D) (hs0 : slices[0]? = some s0) :
    getResidualDataFit resample 1 V slices grid [] t interp = some ([], t) := by
  rw [getResidualDataFit, hs0]
  simp [chunk3, residualRows]

/-- Success and shape of a full registration run on a well-formed stack:
the result exists, the parameter matrix is the solved rows with a zero row
prepended, the corrected stack carries the suffixed filename and fresh
consecutive slice addresses, the input heap entries are untouched, and every
returned transform (and every corrected slice) is given by the composer
formula for its row and its alignment transform. -/
theorem run_spec (C S : ℚ → ℚ) (resample : ResampleFun) (solver : SolverFun)
    (h : Heap) (fixed : StackObj) (u um : Bool)
    (hsz : fixed.sliceIds.length = fixed.sizeZ)
    (hN : 1 ≤ fixed.sizeZ)
    (hids : ∀ id ∈ fixed.sliceIds, id < h.length)
    (hsolver : ∀ f x0, (solver f x0).length = x0.length) :
    ∃ res groups,
      runRegularizedRigidInplaneRegistration C S resample solver h fixed u um
        = some res ∧
      res.parameters = (0, 0, 0) :: groups ∧
      groups.length = fixed.sizeZ - 1 ∧
      res.registrationTransforms.length = fixed.sizeZ ∧
      res.stackCorrected.filename = fixed.filename ++ "_registered" ∧
      res.stackCorrected.sliceIds =
        List.range' (h.length + fixed.sizeZ) fixed.sizeZ ∧
      (∀ k, k < h.length → res.heap[k]? = h[k]?) ∧
      (∀ j, j < fixed.sizeZ → ∃ id obj, fixed.sliceIds[j]? = some id ∧
        h[id]? = some obj ∧
        res.registrationTransforms[j]? = some (composerFormula C S
          (affInv ⟨obj.direction, obj.origin⟩)
          (res.parameters.getD j (0, 0, 0))) ∧
        res.heap[h.length + fixed.sizeZ + j]? = some (updateMotionCorrectionObj
          (composerFormula C S (affInv ⟨obj.direction, obj.origin⟩)
            (res.parameters.getD j (0, 0, 0))) obj)) := by
  obtain ⟨pps, hppsEq, hppsLen, hppsCont⟩ :=
    getListOf3DRigidTransforms_spec h fixed hids
  obtain ⟨h1, projected, hproj, hprojLen, hprojExact, hprojFrame, _⟩ :=
    projectLoop_spec u fixed.sliceIds pps fixed.sizeZ 0 h
      (fun j hj => by
        have hjl : j < fixed.sliceIds.length := by omega
        refine ⟨fixed.sliceIds[j], ?_, hids _ (List.getElem_mem hjl)⟩
        rw [Nat.zero_add]
        exact List.getElem?_eq_getElem hjl)
      (fun j hj => by
        have hjl : j < pps.length := by omega
        rw [Nat.zero_add, List.getElem?_eq_getElem hjl]
        rfl)
  have hproj2 : get2DProjectedAndMaskedSlices h u fixed pps =
      some (h1, projected) := by
    rw [get2DProjectedAndMaskedSlices]; exact hproj
  have hg0 : 0 < projected.length := by omega
  have hgrid : projected[0]? = some projected[0] := List.getElem?_eq_getElem hg0
  have hresXlen : (solver (fun x t => getResidualDataFit resample fixed.sizeZ
      (fixed.sizeY * fixed.sizeX) projected projected[0] x t)
      (List.replicate (3 * (fixed.sizeZ - 1)) 0)).length = 3 * (fixed.sizeZ - 1) := by
    rw [hsolver, List.length_replicate]
  obtain ⟨groups, hchunk, hglen⟩ := chunk3_of_length (fixed.sizeZ - 1) _ hresXlen
  obtain ⟨h2, st, ts, happly, hfname, hstids, htsLen, htsCont, hframe2, hcont2⟩ :=
    applyMotionCorrection_spec C S h1 fixed ((0, 0, 0) :: groups) pps
      (fun id hid => by have := hids id hid; omega)
      hsz (by simp [hglen]; omega) (by omega)
  refine ⟨⟨h2, st, ts, (0, 0, 0) :: groups⟩, groups, ?_, rfl, hglen, htsLen,
    hfname, ?_, ?_, ?_⟩
  · rw [runRegularizedRigidInplaneRegistration]
    simp only [hppsEq, hproj2, hgrid, hchunk, happly, Option.map_some']
  · rw [hstids, hprojExact]
  · intro k hk
    have hk1 : k < h1.length := by omega
    show h2[k]? = h[k]?
    rw [hframe2 k hk1, hprojFrame k hk]
  · intro j hj
    obtain ⟨id, obj, hida, hobja, hppsj⟩ := hppsCont j (by omega)
    refine ⟨id, obj, hida, hobja, ?_, ?_⟩
    · have := htsCont j hj
      rw [getD_of_getElem? pps j _ affId hppsj] at this
      exact this
    · obtain ⟨id2, hid2a, hid2b⟩ := hcont2 j hj
      have hideq : id2 = id := by
        rw [hida] at hid2a
        exact (Option.some.inj hid2a).symm
      subst hideq
      have hidlt : id2 < h.length := hids id2 (List.getElem?_mem hida)
      show h2[h.length + fixed.sizeZ + j]? = _
      rw [show h.length + fixed.sizeZ + j = h1.length + j by omega, hid2b,
        hprojFrame id2 hidlt, hobja,
        getD_of_getElem? pps j _ affId hppsj]
      rfl

/-! ### Claim theorems -/

/-- Claim C4: expanding a 2D rigid transform with angle `theta`, translation
`(tx, ty)` and center `(cx, cy)` to 3D produces a transform with z-rotation
`theta`, zero x- and y-rotation, translation `(tx, ty, 0)` and center
`(cx, cy, 0)`; extracting the z-rotation, x/y translation and x/y center
recovers exactly the original 2D parameters. -/
theorem expand2DTo3D_round_trip (T : Euler2D) :
    (get3DFrom2DRigidTransformSitk T).angleX = 0 ∧
    (get3DFrom2DRigidTransformSitk T).angleY = 0 ∧
    (get3DFrom2DRigidTransformSitk T).angleZ = T.angle ∧
    (get3DFrom2DRigidTransformSitk T).tx = T.tx ∧
    (get3DFrom2DRigidTransformSitk T).ty = T.ty ∧
    (get3DFrom2DRigidTransformSitk T).tz = 0 ∧
    (get3DFrom2DRigidTransformSitk T).cx = T.cx ∧
    (get3DFrom2DRigidTransformSitk T).cy = T.cy ∧
    (get3DFrom2DRigidTransformSitk T).cz = 0 ∧
    project3DTo2DRigid (get3DFrom2DRigidTransformSitk T) = T := by
  cases T
  simp [get3DFrom2DRigidTransformSitk, project3DTo2DRigid]

/-- Claim C1: for a stack of `N ≥ 2` (projected) slices and a parameter
vector of length `3·(N−1)`, the residual evaluator reshapes the vector into
`N−1` groups of 3; with `nda 0` the raw pixel array of projected slice 0 and
`nda i` the pixels of projected slice `i` resampled onto the fixed reference
grid under the 2D rigid transform with group `i`'s parameters (linear
interpolation), the returned vector is the concatenation in slice order of
the flattened blocks `nda[i−1] − nda[i]`, and its length is `(N−1)` times
the 2D voxel count `V` of the reference grid. -/
theorem residual_evaluator_matches_spec
    (resample : ResampleFun) (N V : ℕ) (slices : List Img2D) (grid : Img2D)
    (pvec : List ℚ) (t0 : Euler2D)
    (hN : 2 ≤ N) (hlen : slices.length = N)
    (hp : pvec.length = 3 * (N - 1))
    (hres : ∀ s tr, (resample s grid tr sitkLinear).pixels.length = V)
    (h0 : (slices.getD 0 imgDefault).pixels.length = V) :
    ∃ groups tf,
      chunk3 pvec = some groups ∧ groups.length = N - 1 ∧
      getResidualDataFit resample N V slices grid pvec t0 =
        some (specResidual resample sitkLinear grid slices groups
          (t0.cx, t0.cy) N, tf) ∧
      (specResidual resample sitkLinear grid slices groups
        (t0.cx, t0.cy) N).length = (N - 1) * V := by
  obtain ⟨groups, hg, hglen⟩ := chunk3_of_length (N - 1) pvec hp
  have hi0 : 0 < slices.length := by omega
  have hs0 : slices[0]? = some (slices.getD 0 imgDefault) := by
    rw [List.getElem?_eq_getElem hi0, List.getD_eq_getElem slices imgDefault hi0]
  have hnda0 : (slices.getD 0 imgDefault).pixels =
      specNda resample sitkLinear grid slices groups (t0.cx, t0.cy) 0 := rfl
  obtain ⟨tf, hrr, _, _⟩ := residualRows_eq_spec resample sitkLinear grid slices
    groups V (t0.cx, t0.cy) hres (N - 1) 0 t0 rfl rfl (by omega) (by omega)
    (by rw [← hnda0]; exact h0)
  refine ⟨groups, tf, hg, hglen, ?_, specResidual_length resample sitkLinear grid
    slices groups (t0.cx, t0.cy) V N hres h0⟩
  simp only [getResidualDataFit, hg, hs0, hnda0, hrr, Option.map_some']
  refine congrArg some (congrArg₂ Prod.mk ?_ rfl)
  rw [specResidual]
  refine congrArg List.flatten (List.map_congr_left (fun j _ => ?_))
  rw [Nat.zero_add]

/-- Witness for C1 at a concrete two-slice input. -/
theorem residual_evaluator_matches_spec_witness :
    ∃ groups tf,
      chunk3 [0, 0, 0] = some groups ∧ groups.length = 2 - 1 ∧
      getResidualDataFit wResample 2 1 wSlices wGrid [0, 0, 0] euler2DDefault =
        some (specResidual wResample sitkLinear wGrid wSlices groups
          (euler2DDefault.cx, euler2DDefault.cy) 2, tf) ∧
      (specResidual wResample sitkLinear wGrid wSlices groups
        (euler2DDefault.cx, euler2DDefault.cy) 2).length = (2 - 1) * 1 :=
  residual_evaluator_matches_spec wResample 2 1 wSlices wGrid [0, 0, 0]
    euler2DDefault (by omega) (by decide) (by decide)
    (fun s tr => rfl) (by decide)

/-- Claim C6: the residual evaluator is deterministic — two calls with
identical parameter vectors and identical slice state return identical
residual vectors, including when the calls are made in sequence so that the
first call's mutation of the shared per-slice transform object precedes the
second call (the second call starts from the first call's final transform
state). -/
theorem residual_evaluator_deterministic (resample : ResampleFun) (N V : ℕ)
    (slices : List Img2D) (grid : Img2D) (pvec : List ℚ) (interp : ℕ)
    (t0 : Euler2D) (r1 r2 : List ℚ) (t1 t2 : Euler2D)
    (h1 : getResidualDataFit resample N V slices grid pvec t0 interp = some (r1, t1))
    (h2 : getResidualDataFit resample N V slices grid pvec t1 interp = some (r2, t2)) :
    r2 = r1 := by
  obtain ⟨hx, hy⟩ := getResidualDataFit_center resample N V slices grid pvec
    interp t0 r1 t1 h1
  have hc := getResidualDataFit_congr_center resample N V slices grid pvec
    interp t1 t0 hx hy
  rw [h1, h2] at hc
  simpa using hc

/-- Witness for C6: a concrete pair of back-to-back evaluator calls. -/
theorem residual_evaluator_deterministic_witness :
    getResidualDataFit wResample 2 1 wSlices wGrid [0, 0, 0] euler2DDefault
      sitkLinear = some ([-2], euler2DDefault) ∧ ([-2] : List ℚ) = [-2] := by
  have heval : getResidualDataFit wResample 2 1 wSlices wGrid [0, 0, 0]
      euler2DDefault sitkLinear = some ([-2], euler2DDefault) := by
    norm_num [getResidualDataFit, chunk3, residualRows, euler2DSetParameters,
      listSub, wResample, wSlices, wGrid, euler2DDefault, sitkLinear]
  exact ⟨heval,
    residual_evaluator_deterministic wResample 2 1 wSlices wGrid [0, 0, 0]
      sitkLinear euler2DDefault [-2] [-2] euler2DDefault euler2DDefault
      heval heval⟩

/-- Claim C8 (counterexample): the residual evaluator is not side-effect
free — evaluating it at a concrete input changes the shared per-slice
transform object, whose state (the last-written rigid parameters) persists
after the call instead of being restored. -/
theorem residual_evaluator_mutates_shared_transform :
    ¬ Option.map Prod.snd (getResidualDataFit wResample 2 1 wSlices wGrid
        [1, 0, 0] euler2DDefault sitkLinear) = some euler2DDefault := by
  norm_num [getResidualDataFit, chunk3, residualRows, euler2DSetParameters,
    listSub, wResample, wSlices, wGrid, euler2DDefault, sitkLinear]

/-- Claim C8 (amended): the evaluator writes the shared transform object's
rigid parameters (state does carry from one call into the next), but each
call overwrites those parameters before any use, so the returned residual
vector depends only on the parameter vector and the read-only slice state:
two starting transform states with the same center yield the same
residuals. -/
theorem residual_evaluator_carried_state_invisible (resample : ResampleFun)
    (N V : ℕ) (slices : List Img2D) (grid : Img2D) (pvec : List ℚ)
    (interp : ℕ) (t t' : Euler2D) (hx : t.cx = t'.cx) (hy : t.cy = t'.cy) :
    Option.map Prod.fst (getResidualDataFit resample N V slices grid pvec t interp) =
    Option.map Prod.fst (getResidualDataFit resample N V slices grid pvec t' interp) :=
  getResidualDataFit_congr_center resample N V slices grid pvec interp t t' hx hy

/-- Witness for the amended C8: two different carried parameter states, same
center, same residual output. -/
theorem residual_evaluator_carried_state_invisible_witness :
    Option.map Prod.fst (getResidualDataFit wResample 2 1 wSlices wGrid
      [0, 0, 0] ⟨7, 8, 9, 0, 0⟩ sitkLinear) =
    Option.map Prod.fst (getResidualDataFit wResample 2 1 wSlices wGrid
      [0, 0, 0] euler2DDefault sitkLinear) :=
  residual_evaluator_carried_state_invisible wResample 2 1 wSlices wGrid
    [0, 0, 0] sitkLinear ⟨7, 8, 9, 0, 0⟩ euler2DDefault rfl rfl

/-- Claim C2: for every slice `i` in `0..N-1`, the transform applied by the
Correction Composer equals
`compose(invert(align_i), compose(expand_2d_rigid_to_3d(invert(rigid2D(params_i))), align_i))`:
row `i`'s 2D rigid transform is inverted, expanded to 3D, composed so the
alignment acts first and the in-plane correction second, and pre-composed
with the inverse alignment. -/
theorem correction_composer_formula (C S : ℚ → ℚ) (h : Heap)
    (fixed : StackObj) (params : List (ℚ × ℚ × ℚ)) (pps : List Affine3)
    (hids : ∀ id ∈ fixed.sliceIds, id < h.length)
    (hsz : fixed.sliceIds.length = fixed.sizeZ)
    (hpar : fixed.sizeZ ≤ params.length)
    (hpps : fixed.sizeZ ≤ pps.length) :
    ∃ h1 st ts, applyMotionCorrection C S h fixed params pps
        = some (h1, st, ts) ∧
      ts.length = fixed.sizeZ ∧
      ∀ i, i < fixed.sizeZ → ts[i]? = some (composerFormula C S
        (pps.getD i affId) (params.getD i (0, 0, 0))) := by
  obtain ⟨h1, st, ts, ha, _, _, hlen, hcont, _, _⟩ :=
    applyMotionCorrection_spec C S h fixed params pps hids hsz hpar hpps
  exact ⟨h1, st, ts, ha, hlen, hcont⟩

/-- Witness for C2 at a concrete one-slice stack with zero parameters. -/
theorem correction_composer_formula_witness :
    ∃ h1 st ts, applyMotionCorrection wC wS wHeap wStack [(0, 0, 0)] [affId]
        = some (h1, st, ts) ∧
      ts.length = wStack.sizeZ ∧
      ∀ i, i < wStack.sizeZ → ts[i]? = some (composerFormula wC wS
        ([affId].getD i affId) ([((0 : ℚ), (0 : ℚ), (0 : ℚ))].getD i (0, 0, 0))) :=
  correction_composer_formula wC wS wHeap wStack [(0, 0, 0)] [affId]
    (fun id hid => by
      simp only [wStack, List.mem_singleton] at hid
      subst hid
      decide)
    rfl (by decide) (by decide)

/-- Claim C3: on every well-formed stack the run returns a parameter matrix
equal to the solved `(N−1)×3` rows with a zero row prepended (`N` rows in
total), a transform sequence of length exactly `N`, and a first transform
equal to the identity (the in-plane identity correction conjugated by slice
0's alignment collapses to the identity map, since row 0 is zero). -/
theorem composer_invariant_run (C S : ℚ → ℚ) (resample : ResampleFun)
    (solver : SolverFun) (h : Heap) (fixed : StackObj) (u um : Bool)
    (hsz : fixed.sliceIds.length = fixed.sizeZ)
    (hN : 1 ≤ fixed.sizeZ)
    (hids : ∀ id ∈ fixed.sliceIds, id < h.length)
    (hsolver : ∀ f x0, (solver f x0).length = x0.length)
    (hC0 : C 0 = 1) (hS0 : S 0 = 0)
    (id0 : ℕ) (obj0 : SliceObj)
    (hid0 : fixed.sliceIds[0]? = some id0)
    (hobj0 : h[id0]? = some obj0)
    (hdet : m3det obj0.direction ≠ 0) :
    ∃ res groups,
      runRegularizedRigidInplaneRegistration C S resample solver h fixed u um
        = some res ∧
      res.parameters = (0, 0, 0) :: groups ∧
      groups.length = fixed.sizeZ - 1 ∧
      res.parameters.length = fixed.sizeZ ∧
      res.registrationTransforms.length = fixed.sizeZ ∧
      res.registrationTransforms[0]? = some affId ∧
      (∀ p, affApply affId p = p) := by
  obtain ⟨res, groups, hrun, hpar, hglen, htlen, _, _, _, hcont⟩ :=
    run_spec C S resample solver h fixed u um hsz hN hids hsolver
  obtain ⟨id, obj, hida, hobja, htr, _⟩ := hcont 0 (by omega)
  have hideq : id = id0 := by
    rw [hid0] at hida
    exact (Option.some.inj hida).symm
  have hobjeq : obj = obj0 := by
    rw [hideq, hobj0] at hobja
    exact (Option.some.inj hobja).symm
  rw [hobjeq] at htr
  have hrow0 : res.parameters.getD 0 (0, 0, 0) = (0, 0, 0) := by rw [hpar]; rfl
  rw [hrow0] at htr
  have hdetInv : m3det (affInv ⟨obj0.direction, obj0.origin⟩).A ≠ 0 :=
    m3det_m3inv_ne_zero obj0.direction hdet
  rw [composerFormula_zero C S hC0 hS0 _ hdetInv] at htr
  exact ⟨res, groups, hrun, hpar, hglen,
    by rw [hpar]; simp [hglen]; omega, htlen, htr, affApply_affId⟩

/-- Witness for C3 at a concrete one-slice stack with identity placement. -/
theorem composer_invariant_run_witness :
    ∃ res groups,
      runRegularizedRigidInplaneRegistration wC wS wResample wSolver wHeap
        wStack false false = some res ∧
      res.parameters = (0, 0, 0) :: groups ∧
      groups.length = wStack.sizeZ - 1 ∧
      res.parameters.length = wStack.sizeZ ∧
      res.registrationTransforms.length = wStack.sizeZ ∧
      res.registrationTransforms[0]? = some affId ∧
      (∀ p, affApply affId p = p) :=
  composer_invariant_run wC wS wResample wSolver wHeap wStack false false
    rfl (by decide)
    (fun id hid => by
      simp only [wStack, List.mem_singleton] at hid
      subst hid
      decide)
    (fun _ _ => rfl) rfl rfl 0 wSliceObj rfl rfl
    (by norm_num [wSliceObj, m3det, m3id])

/-- Claim C5 (counterexample): with a single slice, the corrected stack is
not equal to the input stack — its filename differs (the `"_registered"`
suffix is appended), even though the slice contents agree. -/
theorem single_slice_corrected_stack_differs :
    (runRegularizedRigidInplaneRegistration wC wS wResample wSolver wHeap
      wStack false false).map (fun res => stackValue res.heap res.stackCorrected) ≠
    (runRegularizedRigidInplaneRegistration wC wS wResample wSolver wHeap
      wStack false false).map (fun res => stackValue res.heap wStack) := by
  obtain ⟨res, groups, hrun, _, _, _, hfname, _, _, _⟩ :=
    run_spec wC wS wResample wSolver wHeap wStack false false rfl (by decide)
      (fun id hid => by
        simp only [wStack, List.mem_singleton] at hid
        subst hid
        decide)
      (fun _ _ => rfl)
  rw [hrun]
  simp only [Option.map_some', ne_eq, Option.some.injEq]
  intro hcontra
  have h1 := congrArg Prod.fst hcontra
  simp only [stackValue] at h1
  rw [hfname] at h1
  exact absurd h1 (by decide)

/-- Claim C5 (amended): with a single slice the run succeeds, the residual
model degenerates to the empty residual vector (no division by zero, no
out-of-range indexing), the applied transform sequence is exactly the
identity transform, and the corrected stack's slices equal the input
stack's slices — while its filename gains the `"_registered"` suffix. -/
theorem single_slice_run (C S : ℚ → ℚ) (resample : ResampleFun)
    (solver : SolverFun) (h : Heap) (fixed : StackObj) (u um : Bool)
    (id0 : ℕ) (obj0 : SliceObj)
    (hone : fixed.sliceIds = [id0])
    (hsz1 : fixed.sizeZ = 1)
    (hid0lt : id0 < h.length)
    (hobj0 : h[id0]? = some obj0)
    (hsolver : ∀ f x0, (solver f x0).length = x0.length)
    (hC0 : C 0 = 1) (hS0 : S 0 = 0)
    (hdet : m3det obj0.direction ≠ 0) :
    ∃ res,
      runRegularizedRigidInplaneRegistration C S resample solver h fixed u um
        = some res ∧
      res.registrationTransforms = [affId] ∧
      res.stackCorrected.sliceIds.map (fun id => res.heap[id]?) =
        fixed.sliceIds.map (fun id => h[id]?) ∧
      res.stackCorrected.filename = fixed.filename ++ "_registered" ∧
      (∀ (resample2 : ResampleFun) (V : ℕ) (sl : List Img2D) (g : Img2D)
        (t : Euler2D) (interp : ℕ) (s0 : Img2D), sl[0]? = some s0 →
        getResidualDataFit resample2 1 V sl g [] t interp = some ([], t)) := by
  obtain ⟨res, groups, hrun, hpar, hglen, htlen, hfname, hstids, _, hcont⟩ :=
    run_spec C S resample solver h fixed u um (by rw [hone, hsz1]; rfl)
      (by omega) (fun id hid => by rw [hone] at hid; simp at hid; omega)
      hsolver
  obtain ⟨id, obj, hida, hobja, htr, hheap⟩ := hcont 0 (by omega)
  have hideq : id = id0 := by
    rw [hone] at hida
    simpa using hida.symm
  have hobjeq : obj = obj0 := by
    rw [hideq, hobj0] at hobja
    exact (Option.some.inj hobja).symm
  rw [hobjeq] at htr hheap
  have hrow0 : res.parameters.getD 0 (0, 0, 0) = (0, 0, 0) := by rw [hpar]; rfl
  have hdetInv : m3det (affInv ⟨obj0.direction, obj0.origin⟩).A ≠ 0 :=
    m3det_m3inv_ne_zero obj0.direction hdet
  rw [hrow0, composerFormula_zero C S hC0 hS0 _ hdetInv] at htr hheap
  rw [updateMotionCorrectionObj_id] at hheap
  have hts : res.registrationTransforms = [affId] := by
    rcases hl : res.registrationTransforms with _ | ⟨a, rest⟩
    · rw [hl, hsz1] at htlen; simp at htlen
    · rw [hl] at htr htlen
      rw [hsz1] at htlen
      have hrest : rest = [] := by
        have : rest.length = 0 := by simpa using htlen
        exact List.eq_nil_of_length_eq_zero this
      subst hrest
      have ha : a = affId := by simpa using htr
      rw [ha]
  refine ⟨res, hrun, hts, ?_, hfname, fun resample2 V sl g t interp s0 hs0 =>
    getResidualDataFit_one resample2 V sl g t interp s0 hs0⟩
  rw [hstids, hone, hsz1]
  have hr1 : List.range' (h.length + 1) 1 = [h.length + 1] := rfl
  rw [hr1]
  simp only [List.map_cons, List.map_nil]
  rw [hobj0, ← hheap]
  congr 1
  rw [hsz1]

/-- Witness for the amended C5 at a concrete one-slice stack. -/
theorem single_slice_run_witness :
    ∃ res,
      runRegularizedRigidInplaneRegistration wC wS wResample wSolver wHeap
        wStack false false = some res ∧
      res.registrationTransforms = [affId] ∧
      res.stackCorrected.sliceIds.map (fun id => res.heap[id]?) =
        wStack.sliceIds.map (fun id => wHeap[id]?) ∧
      res.stackCorrected.filename = wStack.filename ++ "_registered" ∧
      (∀ (resample2 : ResampleFun) (V : ℕ) (sl : List Img2D) (g : Img2D)
        (t : Euler2D) (interp : ℕ) (s0 : Img2D), sl[0]? = some s0 →
        getResidualDataFit resample2 1 V sl g [] t interp = some ([], t)) :=
  single_slice_run wC wS wResample wSolver wHeap wStack false false 0 wSliceObj
    rfl rfl (by decide) rfl (fun _ _ => rfl) rfl rfl
    (by norm_num [wSliceObj, m3det, m3id])

/-- Claim C7: slice projection multiplies the extracted 2D image by the
extracted 2D mask (cast to the image's pixel type) exactly when
mask-weighting is enabled for the fixed role, and passes the image through
unweighted otherwise; the moving-role mask flag never influences the run. -/
theorem projection_mask_weighting (h : Heap) (fixed : StackObj)
    (pps : List Affine3) (u : Bool)
    (hval : ∀ j, j < fixed.sizeZ → ∃ id, fixed.sliceIds[j]? = some id ∧
      id < h.length)
    (hpps : fixed.sizeZ ≤ pps.length) :
    (∃ h1 imgs, get2DProjectedAndMaskedSlices h u fixed pps = some (h1, imgs) ∧
      imgs.length = fixed.sizeZ ∧
      (∀ j, j < fixed.sizeZ → ∃ id obj, fixed.sliceIds[j]? = some id ∧
        h[id]? = some obj ∧
        imgs[j]? = some ⟨if u then listMul obj.pixels
            (obj.maskPixels.map (fun z => (z : ℚ)))
          else obj.pixels, obj.filename, obj.sliceNumber⟩)) ∧
    (∀ (C S : ℚ → ℚ) (resample : ResampleFun) (solver : SolverFun)
      (um um' : Bool),
      runRegularizedRigidInplaneRegistration C S resample solver h fixed u um =
      runRegularizedRigidInplaneRegistration C S resample solver h fixed u um') := by
  constructor
  · obtain ⟨h1, imgs, hproj, hlen, _, _, hcont⟩ :=
      projectLoop_spec u fixed.sliceIds pps fixed.sizeZ 0 h
        (fun j hj => by
          obtain ⟨id, hida, hidb⟩ := hval j hj
          refine ⟨id, ?_, hidb⟩
          rw [Nat.zero_add]
          exact hida)
        (fun j hj => by
          have hjl : j < pps.length := by omega
          rw [Nat.zero_add, List.getElem?_eq_getElem hjl]
          rfl)
    refine ⟨h1, imgs, by rw [get2DProjectedAndMaskedSlices]; exact hproj,
      hlen, fun j hj => ?_⟩
    obtain ⟨id, obj, hida, hobja, himg⟩ := hcont j hj
    rw [Nat.zero_add] at hida
    exact ⟨id, obj, hida, hobja, himg⟩
  · intro C S resample solver um um'
    rfl

/-- Witness for C7 with mask-weighting enabled on a concrete stack. -/
theorem projection_mask_weighting_witness :
    (∃ h1 imgs, get2DProjectedAndMaskedSlices wHeap true wStack [affId]
        = some (h1, imgs) ∧
      imgs.length = wStack.sizeZ ∧
      (∀ j, j < wStack.sizeZ → ∃ id obj, wStack.sliceIds[j]? = some id ∧
        wHeap[id]? = some obj ∧
        imgs[j]? = some ⟨if true then listMul obj.pixels
            (obj.maskPixels.map (fun z => (z : ℚ)))
          else obj.pixels, obj.filename, obj.sliceNumber⟩)) ∧
    (∀ (C S : ℚ → ℚ) (resample : ResampleFun) (solver : SolverFun)
      (um um' : Bool),
      runRegularizedRigidInplaneRegistration C S resample solver wHeap wStack
        true um =
      runRegularizedRigidInplaneRegistration C S resample solver wHeap wStack
        true um') :=
  projection_mask_weighting wHeap wStack [affId] true
    (fun j hj => by
      have hj1 : j < 1 := hj
      have hj0 : j = 0 := by omega
      subst hj0
      exact ⟨0, rfl, by decide⟩)
    (by decide)

/-- Claim C9: the input stack is never mutated — after a full registration
run every heap entry that existed before the run (in particular every slice
object of the input stack, with its direction matrix, origin, mask geometry
and pixel content) is unchanged; the run writes only to freshly allocated
copies. -/
theorem run_never_mutates_input (C S : ℚ → ℚ) (resample : ResampleFun)
    (solver : SolverFun) (h : Heap) (fixed : StackObj) (u um : Bool)
    (hsz : fixed.sliceIds.length = fixed.sizeZ)
    (hN : 1 ≤ fixed.sizeZ)
    (hids : ∀ id ∈ fixed.sliceIds, id < h.length)
    (hsolver : ∀ f x0, (solver f x0).length = x0.length) :
    ∃ res,
      runRegularizedRigidInplaneRegistration C S resample solver h fixed u um
        = some res ∧
      (∀ k, k < h.length → res.heap[k]? = h[k]?) ∧
      (∀ id, id ∈ fixed.sliceIds → res.heap[id]? = h[id]?) := by
  obtain ⟨res, groups, hrun, _, _, _, _, _, hframe, _⟩ :=
    run_spec C S resample solver h fixed u um hsz hN hids hsolver
  exact ⟨res, hrun, hframe, fun id hid => hframe id (hids id hid)⟩

/-- Witness for C9 at a concrete one-slice stack. -/
theorem run_never_mutates_input_witness :
    ∃ res,
      runRegularizedRigidInplaneRegistration wC wS wResample wSolver wHeap
        wStack false false = some res ∧
      (∀ k, k < wHeap.length → res.heap[k]? = wHeap[k]?) ∧
      (∀ id, id ∈ wStack.sliceIds → res.heap[id]? = wHeap[id]?) :=
  run_never_mutates_input wC wS wResample wSolver wHeap wStack false false
    rfl (by decide)
    (fun id hid => by
      simp only [wStack, List.mem_singleton] at hid
      subst hid
      decide)
    (fun _ _ => rfl)

/-- Claim C10: the corrected stack produced by the Correction Composer
carries the input stack's filename with the literal suffix `"_registered"`
appended (the input stack value itself is never written, so its own filename
is unchanged). -/
theorem corrected_stack_filename_suffix (C S : ℚ → ℚ) (resample : ResampleFun)
    (solver : SolverFun) (h : Heap) (fixed : StackObj) (u um : Bool)
    (hsz : fixed.sliceIds.length = fixed.sizeZ)
    (hN : 1 ≤ fixed.sizeZ)
    (hids : ∀ id ∈ fixed.sliceIds, id < h.length)
    (hsolver : ∀ f x0, (solver f x0).length = x0.length) :
    ∃ res,
      runRegularizedRigidInplaneRegistration C S resample solver h fixed u um
        = some res ∧
      res.stackCorrected.filename = fixed.filename ++ "_registered" := by
  obtain ⟨res, groups, hrun, _, _, _, hfname, _, _, _⟩ :=
    run_spec C S resample solver h fixed u um hsz hN hids hsolver
  exact ⟨res, hrun, hfname⟩

/-- Witness for C10 at a concrete one-slice stack. -/
theorem corrected_stack_filename_suffix_witness :
    ∃ res,
      runRegularizedRigidInplaneRegistration wC wS wResample wSolver wHeap
        wStack false false = some res ∧
      res.stackCorrected.filename = wStack.filename ++ "_registered" :=
  corrected_stack_filename_suffix wC wS wResample wSolver wHeap wStack
    false false rfl (by decide)
    (fun id hid => by
      simp only [wStack, List.mem_singleton] at hid
      subst hid
      decide)
    (fun _ _ => rfl)

end RegInPlane
